import Mathlib

/-!
Shallow embedding of the score-and-ranking subsystem of the Solana memory
card game (src/src/lib/api.ts `LeaderboardManager` and
src/src/lib/tournament.ts `TournamentManager`).

Modelling conventions:
* JS numbers (scores, fees, prize pools) are rationals (exact arithmetic).
* `Date` values are integer millisecond timestamps.
* `uuidv4()` is modelled by a fresh-id counter carried in the store; entry
  ids are the counter value, tournament ids its decimal rendering.
* The two `localStorage` keys are the two list fields of `Store`.
* `makePayment` is passed in as an `Option Bool` capability value:
  `some b` models the promise resolving to `b`, `none` models it throwing
  (which `enterTournament` catches and turns into `false`).
-/

namespace MemGame

/-- Tournament status: 'upcoming' | 'active' | 'completed'. -/
inductive Status where
  | upcoming
  | active
  | completed
deriving DecidableEq, Repr

/-- `LeaderboardEntry` (api.ts). `tournamentId` is the optional string field. -/
structure Entry where
  id : Nat
  playerWallet : String
  score : ℚ
  difficulty : String
  moves : Nat
  time : Nat
  date : Int
  tournamentId : Option String
deriving DecidableEq, Repr

/-- `Tournament` (api.ts). `winners` defaults to `[]` (set at creation). -/
structure Tournament where
  id : String
  name : String
  status : Status
  startTime : Int
  endTime : Int
  entryFee : ℚ
  prizePool : ℚ
  participants : List String
  difficulty : String
  winners : List Entry
deriving DecidableEq, Repr

/-- The persistent store: the leaderboard key, the tournaments key, and the
counter modelling uuid freshness. -/
structure Store where
  entries : List Entry
  tournaments : List Tournament
  nextId : Nat
deriving DecidableEq, Repr

/-- The empty store (no persisted data yet). -/
def emptyStore : Store := { entries := [], tournaments := [], nextId := 0 }

/-- JS falsiness of the optional `tournamentId` string:
`!entry.tournamentId` is true when the field is undefined or `""`. -/
def falsyTid : Option String → Bool
  | none => true
  | some s => s == ""

/-- Insertion step of the stable score-descending sort. -/
def insertD (x : Entry) : List Entry → List Entry
  | [] => [x]
  | y :: ys => if y.score ≤ x.score then x :: y :: ys else y :: insertD x ys

/-- `array.sort((a, b) => b.score - a.score)`: ES2019 `Array.prototype.sort`
is stable, so this is the stable sort by score descending. -/
def sortDesc : List Entry → List Entry
  | [] => []
  | x :: xs => insertD x (sortDesc xs)

/-- JS `Array.prototype.findIndex`, with `-1` rendered as `none`. -/
def jsFindIndex (p : Entry → Bool) : List Entry → Option Nat
  | [] => none
  | x :: xs => if p x then some 0 else (jsFindIndex p xs).map (· + 1)

/-- Arguments of one `addScore` call (`date` is the call's wall-clock time). -/
structure ScoreArgs where
  playerWallet : String
  score : ℚ
  difficulty : String
  moves : Nat
  time : Nat
  date : Int
  tournamentId : Option String
deriving DecidableEq, Repr

/-- The entry built at the top of `addScore`, with its fresh id. -/
def mkEntry (i : Nat) (a : ScoreArgs) : Entry :=
  { id := i, playerWallet := a.playerWallet, score := a.score,
    difficulty := a.difficulty, moves := a.moves, time := a.time,
    date := a.date, tournamentId := a.tournamentId }

/-- `LeaderboardManager.getLeaderboard`. -/
def getLeaderboard (s : Store) : List Entry := s.entries

/-- `LeaderboardManager.addScore`: build the entry, push it, sort the whole
collection by score descending, persist, and return the entry. -/
def addScore (a : ScoreArgs) (s : Store) : Entry × Store :=
  let e := mkEntry s.nextId a
  (e, { s with entries := sortDesc (getLeaderboard s ++ [e]),
               nextId := s.nextId + 1 })

/-- `addScore` iterated `k` times with the same arguments. -/
def addScoreK (a : ScoreArgs) : Nat → Store → Store
  | 0, s => s
  | k + 1, s => addScoreK a k (addScore a s).2

/-- A whole run of `addScore` calls from the empty store, in call order. -/
def runScores (calls : List ScoreArgs) : Store :=
  calls.foldl (fun s a => (addScore a s).2) emptyStore

/-- `LeaderboardManager.getLeaderboardByDifficulty`: difficulty matches and
`!entry.tournamentId`, then sort by score descending. -/
def getLeaderboardByDifficulty (d : String) (s : Store) : List Entry :=
  sortDesc ((getLeaderboard s).filter
    (fun e => e.difficulty == d && falsyTid e.tournamentId))

/-- The filter used inside `getPlayerBestScore` (the player's non-tournament
entries at the given difficulty). -/
def playerEntries (w d : String) (s : Store) : List Entry :=
  (getLeaderboard s).filter
    (fun e => e.playerWallet == w && (e.difficulty == d && falsyTid e.tournamentId))

/-- `Math.max` over a nonempty list of scores. -/
def maxOf : ℚ → List ℚ → ℚ
  | x, [] => x
  | x, y :: ys => maxOf (max x y) ys

/-- `LeaderboardManager.getPlayerBestScore`. -/
def getPlayerBestScore (w d : String) (s : Store) : ℚ :=
  match (playerEntries w d s).map Entry.score with
  | [] => 0
  | x :: xs => maxOf x xs

/-- `LeaderboardManager.getPlayerRank`. -/
def getPlayerRank (w d : String) (s : Store) : Nat :=
  let lb := getLeaderboardByDifficulty d s
  let best := getPlayerBestScore w d s
  if best = 0 then 0
  else
    match jsFindIndex (fun e => e.playerWallet == w && decide (e.score = best)) lb with
    | some i => i + 1
    | none => 0

/-- `LeaderboardManager.getTournaments`. -/
def getTournaments (s : Store) : List Tournament := s.tournaments

/-- `tournaments.find(t => t.id === tournamentId)`. -/
def findT (tid : String) (s : Store) : Option Tournament :=
  (getTournaments s).find? (fun t => t.id == tid)

/-- Replace the first tournament whose id matches (the JS code mutates the
object returned by `find`/`findIndex` inside the array it writes back). -/
def updateFirst (tid : String) (f : Tournament → Tournament) :
    List Tournament → List Tournament
  | [] => []
  | t :: ts => if t.id == tid then f t :: ts else t :: updateFirst tid f ts

/-- `LeaderboardManager.createTournament`: fresh id, `prizePool = 0`, empty
participants, empty winners, appended to the stored collection. -/
def lbCreateTournament (name : String) (status : Status) (startTime endTime : Int)
    (entryFee : ℚ) (difficulty : String) (s : Store) : Tournament × Store :=
  let t : Tournament :=
    { id := Nat.repr s.nextId, name := name, status := status,
      startTime := startTime, endTime := endTime, entryFee := entryFee,
      prizePool := 0, participants := [], difficulty := difficulty, winners := [] }
  (t, { s with tournaments := getTournaments s ++ [t], nextId := s.nextId + 1 })

/-- The two mutations `joinTournament` performs on the found tournament:
push the wallet and add the entry fee to the prize pool. -/
def joinUpdate (w : String) (fee : ℚ) (u : Tournament) : Tournament :=
  { u with participants := u.participants ++ [w], prizePool := u.prizePool + fee }

/-- `LeaderboardManager.joinTournament`. -/
def joinTournament (tid w : String) (fee : ℚ) (s : Store) : Bool × Store :=
  match findT tid s with
  | none => (false, s)
  | some t =>
    if w ∈ t.participants then (true, s)
    else (true, { s with tournaments := updateFirst tid (joinUpdate w fee) s.tournaments })

/-- `LeaderboardManager.getTournamentLeaderboard`. -/
def getTournamentLeaderboard (tid : String) (s : Store) : List Entry :=
  sortDesc ((getLeaderboard s).filter (fun e => e.tournamentId == some tid))

/-- `TournamentManager.createTournament`: validation, initial status from
the current time, then the repository-level creation. -/
def tmCreateTournament (name : String) (entryFee : ℚ) (startTime endTime : Int)
    (difficulty : String) (now : Int) (s : Store) : Option Tournament × Store :=
  if entryFee < 0 then (none, s)
  else if endTime ≤ startTime then (none, s)
  else
    let status :=
      if startTime ≤ now ∧ now < endTime then Status.active
      else if endTime ≤ now then Status.completed
      else Status.upcoming
    let r := lbCreateTournament name status startTime endTime entryFee difficulty s
    (some r.1, r.2)

/-- `TournamentManager.enterTournament`. Returns
(result, post-state, whether the payment capability was invoked). -/
def enterTournament (payment : Option Bool) (walletKey : Option String)
    (tid : String) (s : Store) : Bool × Store × Bool :=
  match walletKey with
  | none => (false, s, false)
  | some w =>
    match findT tid s with
    | none => (false, s, false)
    | some t =>
      if t.status ≠ Status.active then (false, s, false)
      else if w ∈ t.participants then (true, s, false)
      else
        match payment with
        | none => (false, s, true)
        | some false => (false, s, true)
        | some true =>
          let r := joinTournament tid w t.entryFee s
          (r.1, r.2, true)

/-- One prize line of `calculatePrizeDistribution`. -/
structure TournamentPrize where
  rank : Nat
  percentage : ℚ
  amount : ℚ
deriving DecidableEq, Repr

/-- `DEFAULT_PRIZE_DISTRIBUTION` (tournament.ts): 50 / 30 / 19.9 percent. -/
def DEFAULT_PRIZE_DISTRIBUTION : List (Nat × ℚ) :=
  [(1, 50), (2, 30), (3, 199 / 10)]

/-- `TournamentManager.calculatePrizeDistribution`. -/
def calculatePrizeDistribution (tid : String) (s : Store) : List TournamentPrize :=
  match findT tid s with
  | none => []
  | some t =>
    DEFAULT_PRIZE_DISTRIBUTION.map
      (fun p => { rank := p.1, percentage := p.2,
                  amount := t.prizePool * p.2 / 100 })

/-- Sum of the `amount` fields of a prize distribution. -/
def sumAmounts (l : List TournamentPrize) : ℚ :=
  l.foldr (fun p acc => p.amount + acc) 0

/-- `TournamentManager.endTournament`. -/
def endTournament (tid : String) (s : Store) : Option Tournament × Store :=
  match findT tid s with
  | none => (none, s)
  | some t =>
    let t' := { t with status := Status.completed,
                       winners := (getTournamentLeaderboard tid s).take 3 }
    (some t', { s with tournaments := updateFirst tid (fun _ => t') s.tournaments })

/-- `TournamentManager.checkAndUpdateTournaments` at wall-clock time `now`:
the two sequential status checks of the forEach body, applied per tournament;
winners read the leaderboard store, which the loop does not touch. -/
def checkAndUpdateTournaments (now : Int) (s : Store) : Store :=
  { s with tournaments := s.tournaments.map (fun t =>
      let t1 :=
        if t.status = Status.upcoming ∧ t.startTime ≤ now ∧ now < t.endTime
        then { t with status := Status.active } else t
      if t1.status = Status.active ∧ t1.endTime ≤ now
      then { t1 with status := Status.completed,
                     winners := (getTournamentLeaderboard t1.id s).take 3 }
      else t1) }

/-- A run of successful entries: fold `enterTournament` (payment resolving
true) over a list of wallets. -/
def enterAll (tid : String) (ws : List String) (s : Store) : Store :=
  ws.foldl (fun st w => (enterTournament (some true) (some w) tid st).2.1) s

/-- The operations of the subsystem, for frame/monotonicity statements. -/
inductive Op where
  | score (a : ScoreArgs)
  | createT (name : String) (fee : ℚ) (st en : Int) (diff : String) (now : Int)
  | joinT (tid w : String) (fee : ℚ)
  | enterT (payment : Option Bool) (wallet : Option String) (tid : String)
  | checkT (now : Int)
  | endT (tid : String)

/-- State effect of one operation. -/
def applyOp : Op → Store → Store
  | .score a, s => (addScore a s).2
  | .createT n f a b d now, s => (tmCreateTournament n f a b d now s).2
  | .joinT tid w fee, s => (joinTournament tid w fee s).2
  | .enterT p w tid, s => (enterTournament p w tid s).2.1
  | .checkT now, s => checkAndUpdateTournaments now s
  | .endT tid, s => (endTournament tid s).2

/-! ### Lemmas about the stable sort -/

/-- Score-descending adjacency: the left entry scores at least the right one. -/
def scoreGe (a b : Entry) : Prop := b.score ≤ a.score

/-- Ties broken by id: equal scores keep ascending (submission-order) ids. -/
def tieOk (a b : Entry) : Prop := a.score = b.score → a.id < b.id

/-- Strict rank order: higher score first, ids ascending inside a tie. -/
def rankLt (a b : Entry) : Prop :=
  b.score < a.score ∨ (a.score = b.score ∧ a.id < b.id)

theorem insertD_perm (x : Entry) (l : List Entry) : (insertD x l).Perm (x :: l) := by
  induction l with
  | nil => simp [insertD]
  | cons y ys ih =>
    by_cases h : y.score ≤ x.score
    · simp [insertD, h]
    · simp only [insertD, if_neg h]
      exact (ih.cons y).trans (List.Perm.swap x y ys)

theorem sortDesc_perm (l : List Entry) : (sortDesc l).Perm l := by
  induction l with
  | nil => simp [sortDesc]
  | cons x xs ih => exact (insertD_perm x (sortDesc xs)).trans (ih.cons x)

theorem mem_sortDesc {a : Entry} {l : List Entry} : a ∈ sortDesc l ↔ a ∈ l :=
  (sortDesc_perm l).mem_iff

theorem insertD_sorted {x : Entry} {l : List Entry}
    (h : l.Pairwise scoreGe) : (insertD x l).Pairwise scoreGe := by
  induction l with
  | nil => simp [insertD]
  | cons y ys ih =>
    rcases List.pairwise_cons.mp h with ⟨hy, hys⟩
    by_cases hc : y.score ≤ x.score
    · simp only [insertD, if_pos hc]
      refine List.pairwise_cons.mpr ⟨?_, h⟩
      intro z hz
      rcases List.mem_cons.mp hz with rfl | hz
      · exact hc
      · exact le_trans (hy z hz) hc
    · simp only [insertD, if_neg hc]
      refine List.pairwise_cons.mpr ⟨?_, ih hys⟩
      intro z hz
      rcases List.mem_cons.mp ((insertD_perm x ys).mem_iff.mp hz) with rfl | hz
      · exact le_of_lt (lt_of_not_le hc)
      · exact hy z hz

theorem sortDesc_sorted (l : List Entry) : (sortDesc l).Pairwise scoreGe := by
  induction l with
  | nil => simp [sortDesc]
  | cons x xs ih => exact insertD_sorted ih

theorem insertD_filter_ne {x : Entry} {q : ℚ} (l : List Entry) (h : x.score ≠ q) :
    (insertD x l).filter (fun e => decide (e.score = q)) =
      l.filter (fun e => decide (e.score = q)) := by
  induction l with
  | nil => simp [insertD, h]
  | cons y ys ih =>
    by_cases hc : y.score ≤ x.score
    · simp [insertD, hc, List.filter_cons, h]
    · simp only [insertD, if_neg hc, List.filter_cons, ih]

theorem insertD_filter_eq {x : Entry} {q : ℚ} (l : List Entry) (h : x.score = q) :
    (insertD x l).filter (fun e => decide (e.score = q)) =
      x :: l.filter (fun e => decide (e.score = q)) := by
  induction l with
  | nil => simp [insertD, h]
  | cons y ys ih =>
    by_cases hc : y.score ≤ x.score
    · simp only [insertD, if_pos hc]
      simp [List.filter_cons, h]
    · have hy : ¬ y.score = q := fun hq => hc (le_of_eq (hq.trans h.symm))
      simp only [insertD, if_neg hc, List.filter_cons, ih]
      simp [hy]

/-- Stability of the sort, score class by score class: filtering any single
score out of the sorted list returns those entries in their original order. -/
theorem sortDesc_filter (l : List Entry) (q : ℚ) :
    (sortDesc l).filter (fun e => decide (e.score = q)) =
      l.filter (fun e => decide (e.score = q)) := by
  induction l with
  | nil => simp [sortDesc]
  | cons x xs ih =>
    by_cases h : x.score = q
    · simp only [sortDesc, insertD_filter_eq _ h, ih]
      simp [h]
    · simp only [sortDesc, insertD_filter_ne _ h, ih]
      simp [h]

theorem insertD_pairwise_rankLt {x : Entry} {l : List Entry}
    (h : l.Pairwise rankLt) (hx : ∀ y ∈ l, tieOk x y) :
    (insertD x l).Pairwise rankLt := by
  induction l with
  | nil => simp [insertD]
  | cons y ys ih =>
    rcases List.pairwise_cons.mp h with ⟨hy, hys⟩
    by_cases hc : y.score ≤ x.score
    · simp only [insertD, if_pos hc]
      refine List.pairwise_cons.mpr ⟨?_, h⟩
      intro z hz
      have hzy : z.score ≤ y.score := by
        rcases List.mem_cons.mp hz with rfl | hz
        · exact le_refl _
        · rcases hy z hz with hlt | ⟨heq, _⟩
          · exact le_of_lt hlt
          · exact le_of_eq heq.symm
      rcases lt_or_eq_of_le (le_trans hzy hc) with hlt | heq
      · exact Or.inl hlt
      · exact Or.inr ⟨heq.symm, hx z hz heq.symm⟩
    · simp only [insertD, if_neg hc]
      refine List.pairwise_cons.mpr ⟨?_, ih hys (fun z hz => hx z (List.mem_cons_of_mem y hz))⟩
      intro z hz
      rcases List.mem_cons.mp ((insertD_perm x ys).mem_iff.mp hz) with rfl | hz
      · exact Or.inl (lt_of_not_le hc)
      · exact hy z hz

theorem sortDesc_pairwise_rankLt {l : List Entry}
    (h : l.Pairwise tieOk) : (sortDesc l).Pairwise rankLt := by
  induction l with
  | nil => simp [sortDesc]
  | cons x xs ih =>
    rcases List.pairwise_cons.mp h with ⟨hx, hxs⟩
    exact insertD_pairwise_rankLt (ih hxs)
      (fun y hy => hx y (mem_sortDesc.mp hy))

/-! ### Lemmas about tournament lookup and in-place update -/

theorem find?_updateFirst {tid : String} {l : List Tournament} {t : Tournament}
    (f : Tournament → Tournament)
    (h : l.find? (fun u => u.id == tid) = some t) (hid : (f t).id = t.id) :
    (updateFirst tid f l).find? (fun u => u.id == tid) = some (f t) := by
  induction l with
  | nil => simp at h
  | cons u us ih =>
    by_cases hc : (u.id == tid) = true
    · have hcp : (fun v : Tournament => v.id == tid) u = true := hc
      rw [List.find?_cons_of_pos us hcp] at h
      injection h with h
      subst h
      simp only [updateFirst, if_pos hc]
      have hfp : (fun v : Tournament => v.id == tid) (f u) = true := by
        simpa [hid] using hc
      exact List.find?_cons_of_pos us hfp
    · have hcp : ¬ (fun v : Tournament => v.id == tid) u = true := hc
      rw [List.find?_cons_of_neg us hcp] at h
      simp only [updateFirst, if_neg hc]
      have hstep : List.find? (fun v => v.id == tid) (u :: updateFirst tid f us) =
          List.find? (fun v => v.id == tid) (updateFirst tid f us) := by
        simp [List.find?_cons, hc]
      rw [hstep]
      exact ih h

theorem updateFirst_getElem? (tid : String) (f : Tournament → Tournament)
    (l : List Tournament) (i : Nat) :
    (updateFirst tid f l)[i]? = l[i]? ∨
      ∃ t, l[i]? = some t ∧ (updateFirst tid f l)[i]? = some (f t) := by
  induction l generalizing i with
  | nil => simp [updateFirst]
  | cons u us ih =>
    by_cases hc : (u.id == tid) = true
    · simp only [updateFirst, if_pos hc]
      cases i with
      | zero => exact Or.inr ⟨u, by simp, by simp⟩
      | succ j => exact Or.inl (by simp)
    · simp only [updateFirst, if_neg hc]
      cases i with
      | zero => exact Or.inl (by simp)
      | succ j => simpa using ih j

/-! ### Lemmas about `jsFindIndex` -/

theorem jsFindIndex_spec {p : Entry → Bool} :
    ∀ {l : List Entry} {i : Nat}, jsFindIndex p l = some i →
      ∃ x, l[i]? = some x ∧ p x = true ∧
        ∀ j y, j < i → l[j]? = some y → p y = false := by
  intro l
  induction l with
  | nil => intro i h; simp [jsFindIndex] at h
  | cons x xs ih =>
    intro i h
    by_cases hp : p x
    · simp only [jsFindIndex, if_pos hp] at h
      injection h with h
      subst h
      exact ⟨x, by simp, hp, fun j y hj => absurd hj (Nat.not_lt_zero j)⟩
    · simp only [jsFindIndex, if_neg hp] at h
      rcases Option.map_eq_some'.mp h with ⟨k, hk, rfl⟩
      rcases ih hk with ⟨z, hz, hpz, hmin⟩
      refine ⟨z, by simpa using hz, hpz, ?_⟩
      intro j y hj hy
      cases j with
      | zero =>
        simp only [List.getElem?_cons_zero] at hy
        injection hy with hy
        subst hy
        simpa using hp
      | succ m =>
        simp only [List.getElem?_cons_succ] at hy
        exact hmin m y (by omega) hy

theorem jsFindIndex_isSome {p : Entry → Bool} {x : Entry} :
    ∀ {l : List Entry}, x ∈ l → p x = true → ∃ i, jsFindIndex p l = some i := by
  intro l
  induction l with
  | nil => intro h; simp at h
  | cons y ys ih =>
    intro hmem hp
    by_cases hy : p y
    · exact ⟨0, by simp [jsFindIndex, hy]⟩
    · rcases List.mem_cons.mp hmem with rfl | hmem
      · exact absurd hp hy
      · rcases ih hmem hp with ⟨k, hk⟩
        exact ⟨k + 1, by simp [jsFindIndex, hy, hk]⟩

/-! ### Lemmas about `maxOf` -/

theorem maxOf_eq_or_mem : ∀ (xs : List ℚ) (x : ℚ), maxOf x xs = x ∨ maxOf x xs ∈ xs := by
  intro xs
  induction xs with
  | nil => intro x; exact Or.inl rfl
  | cons y ys ih =>
    intro x
    rcases ih (max x y) with h | h
    · rcases max_choice x y with hm | hm
      · left
        simp only [maxOf]
        rw [h, hm]
      · right
        simp only [maxOf]
        rw [h, hm]
        exact List.mem_cons_self y ys
    · right
      simp only [maxOf]
      exact List.mem_cons_of_mem y h

theorem le_maxOf : ∀ (xs : List ℚ) (x y : ℚ), y ∈ x :: xs → y ≤ maxOf x xs := by
  intro xs
  induction xs with
  | nil => intro x y h; simp at h; simp [maxOf, h]
  | cons z zs ih =>
    intro x y h
    simp only [maxOf]
    rcases List.mem_cons.mp h with rfl | h
    · exact le_trans (le_max_left y z) (ih _ _ (List.mem_cons_self _ _))
    · rcases List.mem_cons.mp h with rfl | h
      · exact le_trans (le_max_right x y) (ih _ _ (List.mem_cons_self _ _))
      · exact ih _ _ (List.mem_cons_of_mem _ h)

/-! ### Claim C2: payment failure leaves the store unchanged -/

/-- C2: if the payment capability fails (`makePayment` resolves false or
throws), `enterTournament` leaves the stored tournament state unchanged, and
whenever the payment capability was actually invoked the call returns false:
no wallet is added to `participants` and `prizePool` is not incremented. -/
theorem claim_C2 (p : Option Bool) (wk : Option String) (tid : String) (s : Store)
    (hp : p = none ∨ p = some false) :
    (enterTournament p wk tid s).2.1 = s ∧
      ((enterTournament p wk tid s).2.2 = true →
        (enterTournament p wk tid s).1 = false) := by
  cases wk with
  | none => simp [enterTournament]
  | some w =>
    cases hf : findT tid s with
    | none => simp [enterTournament, hf]
    | some t =>
      by_cases hst : t.status = Status.active
      · by_cases hw : w ∈ t.participants
        · simp [enterTournament, hf, hst, hw]
        · rcases hp with rfl | rfl <;> simp [enterTournament, hf, hst, hw]
      · simp [enterTournament, hf, hst]

/-- Fixture: an active tournament with entry fee 5 and an empty store. -/
def tournC2 : Tournament :=
  ⟨"t2", "Cup", Status.active, 0, 100, 5, 0, [], "easy", []⟩

def storeC2 : Store := ⟨[], [tournC2], 1⟩

theorem claim_C2_witness :
    (enterTournament none (some "w1") "t2" storeC2).2.1 = storeC2 ∧
      ((enterTournament none (some "w1") "t2" storeC2).2.2 = true →
        (enterTournament none (some "w1") "t2" storeC2).1 = false) :=
  claim_C2 none (some "w1") "t2" storeC2 (Or.inl rfl)

/-! ### Claim C8: prize distribution sums to at most the pool -/

/-- C8: `calculatePrizeDistribution` returns the empty list when the
tournament id is unknown; for a found tournament with non-negative
`prizePool`, the amounts (50% + 30% + 19.9%) sum to at most `prizePool`.
The operation is a pure read: it is a function of the store and produces no
new store. -/
theorem claim_C8 (tid : String) (s : Store) :
    (findT tid s = none → calculatePrizeDistribution tid s = []) ∧
      ∀ t, findT tid s = some t → 0 ≤ t.prizePool →
        sumAmounts (calculatePrizeDistribution tid s) ≤ t.prizePool := by
  constructor
  · intro h
    simp [calculatePrizeDistribution, h]
  · intro t h hge
    simp only [calculatePrizeDistribution, h, DEFAULT_PRIZE_DISTRIBUTION,
      List.map_cons, List.map_nil, sumAmounts, List.foldr]
    linarith

/-- Fixture: a tournament holding a 100-unit prize pool. -/
def tournC8 : Tournament :=
  ⟨"t8", "Cup", Status.active, 0, 100, 5, 100, ["a", "b"], "easy", []⟩

def storeC8 : Store := ⟨[], [tournC8], 1⟩

theorem claim_C8_witness :
    sumAmounts (calculatePrizeDistribution "t8" storeC8) ≤ tournC8.prizePool :=
  (claim_C8 "t8" storeC8).2 tournC8 (by decide) (by decide)

/-! ### Claim C9: tournament creation validation -/

/-- C9: `TournamentManager.createTournament` returns null and persists
nothing when `entryFee < 0` or `startTime ≥ endTime`; for every other input
it returns a tournament with `prizePool = 0` and no participants, appended
to the stored collection. -/
theorem claim_C9 (name : String) (fee : ℚ) (st en : Int) (diff : String)
    (now : Int) (s : Store) :
    ((fee < 0 ∨ en ≤ st) →
        tmCreateTournament name fee st en diff now s = (none, s)) ∧
      (0 ≤ fee → st < en →
        ∃ t, (tmCreateTournament name fee st en diff now s).1 = some t ∧
          t.prizePool = 0 ∧ t.participants = [] ∧
          (tmCreateTournament name fee st en diff now s).2.tournaments =
            s.tournaments ++ [t]) := by
  constructor
  · rintro (h | h)
    · simp [tmCreateTournament, h]
    · by_cases hf : fee < 0
      · simp [tmCreateTournament, hf]
      · simp [tmCreateTournament, hf, h]
  · intro h0 hlt
    have hf : ¬ fee < 0 := not_lt.mpr h0
    have he : ¬ en ≤ st := not_le.mpr hlt
    simp only [tmCreateTournament, if_neg hf, if_neg he, lbCreateTournament,
      getTournaments]
    exact ⟨_, rfl, rfl, rfl, rfl⟩

theorem claim_C9_witness :
    tmCreateTournament "X" (-1) 0 10 "easy" 0 emptyStore = (none, emptyStore) ∧
      ∃ t, (tmCreateTournament "X" 1 0 10 "easy" 0 emptyStore).1 = some t ∧
        t.prizePool = 0 ∧ t.participants = [] ∧
        (tmCreateTournament "X" 1 0 10 "easy" 0 emptyStore).2.tournaments =
          emptyStore.tournaments ++ [t] :=
  ⟨(claim_C9 "X" (-1) 0 10 "easy" 0 emptyStore).1 (Or.inl (by decide)),
   (claim_C9 "X" 1 0 10 "easy" 0 emptyStore).2 (by decide) (by decide)⟩

/-! ### Claim C4: the difficulty leaderboard query -/

/-- Fixture: a store whose single entry carries the empty string as its
`tournamentId` (a present, non-absent value that JS treats as falsy). -/
def storeC4cex : Store := ⟨[⟨0, "alice", 5, "easy", 1, 1, 0, some ""⟩], [], 1⟩

/-- C4 counterexample: every entry of `storeC4cex` has a present
`tournamentId`, yet `getLeaderboardByDifficulty "easy"` returns one of them
(`!entry.tournamentId` also accepts the empty string). Under the claim the
result would have to be empty. -/
theorem claim_C4_cex :
    (getLeaderboardByDifficulty "easy" storeC4cex).map Entry.tournamentId =
        [some ""] ∧
      ∀ e ∈ storeC4cex.entries, e.tournamentId ≠ none := by
  decide

/-- Fixtures for the rank-stability example: scores 100, 200, 150 submitted
in that order for difficulty "easy". -/
def args100 : ScoreArgs := ⟨"p1", 100, "easy", 5, 30, 0, none⟩

def args200 : ScoreArgs := ⟨"p2", 200, "easy", 5, 30, 1, none⟩

def args150 : ScoreArgs := ⟨"p3", 150, "easy", 5, 30, 2, none⟩

/-- C4 (amended): `getLeaderboardByDifficulty d` returns exactly the stored
entries whose difficulty is `d` and whose `tournamentId` is absent or the
empty string (a permutation of that filtered collection), sorted by score
descending, with equal-score entries retaining their relative stored order
(each score class is filtered out unchanged); for scores 100, 200, 150
submitted in that order it returns [200, 150, 100]. -/
theorem claim_C4 :
    (∀ (d : String) (s : Store),
        (getLeaderboardByDifficulty d s).Perm
            (s.entries.filter
              (fun e => e.difficulty == d && falsyTid e.tournamentId)) ∧
          (getLeaderboardByDifficulty d s).Pairwise scoreGe ∧
          ∀ q : ℚ,
            (getLeaderboardByDifficulty d s).filter
                (fun e => decide (e.score = q)) =
              (s.entries.filter
                  (fun e => e.difficulty == d && falsyTid e.tournamentId)).filter
                (fun e => decide (e.score = q))) ∧
      (getLeaderboardByDifficulty "easy"
          (runScores [args100, args200, args150])).map Entry.score =
        [200, 150, 100] := by
  refine ⟨fun d s => ⟨sortDesc_perm _, sortDesc_sorted _, fun q => sortDesc_filter _ q⟩, ?_⟩
  decide

/-! ### Claim C10: the persisted collection is kept score-sorted -/

theorem addScore_inv {a : ScoreArgs} {s : Store}
    (h1 : s.entries.Pairwise rankLt) (h2 : ∀ e ∈ s.entries, e.id < s.nextId) :
    (addScore a s).2.entries.Pairwise rankLt ∧
      ∀ e ∈ (addScore a s).2.entries, e.id < (addScore a s).2.nextId := by
  constructor
  · apply sortDesc_pairwise_rankLt
    apply List.pairwise_append.mpr
    refine ⟨h1.imp ?_, List.pairwise_singleton _ _, ?_⟩
    · intro x y hr
      rcases hr with hlt | ⟨he, hi⟩
      · exact fun hq => absurd (hq ▸ hlt) (lt_irrefl _)
      · exact fun _ => hi
    · intro x hx y hy
      rcases List.mem_singleton.mp hy with rfl
      exact fun _ => h2 x hx
  · intro e he
    rcases List.mem_append.mp (mem_sortDesc.mp he) with hold | hnew
    · exact Nat.lt_succ_of_lt (h2 e hold)
    · rcases List.mem_singleton.mp hnew with rfl
      exact Nat.lt_succ_self _

theorem foldl_addScore_inv :
    ∀ (calls : List ScoreArgs) (s : Store),
      s.entries.Pairwise rankLt → (∀ e ∈ s.entries, e.id < s.nextId) →
      (calls.foldl (fun st a => (addScore a st).2) s).entries.Pairwise rankLt := by
  intro calls
  induction calls with
  | nil => intro s h1 _; exact h1
  | cons a rest ih =>
    intro s h1 h2
    rcases addScore_inv h1 h2 with ⟨h1', h2'⟩
    exact ih _ h1' h2'

/-- C10: after every `addScore` call the persisted collection, as returned
by `getLeaderboard`, is ordered by non-increasing score; over any run of
`addScore` calls from the empty store, equal-score entries additionally
appear in submission order (ascending fresh ids); the store is not kept in
insertion order (scores submitted as 100 then 200 come back as [200, 100]). -/
theorem claim_C10 :
    (∀ calls : List ScoreArgs, (runScores calls).entries.Pairwise rankLt) ∧
      (∀ (a : ScoreArgs) (s : Store),
        (getLeaderboard (addScore a s).2).Pairwise scoreGe) ∧
      (getLeaderboard (runScores [args100, args200])).map Entry.score =
        [200, 100] := by
  refine ⟨?_, ?_, by decide⟩
  · intro calls
    exact foldl_addScore_inv calls emptyStore (by simp [emptyStore]) (by simp [emptyStore])
  · intro a s
    exact sortDesc_sorted _

/-! ### Claim C7: addScore is append-only with fresh ids -/

theorem addScore_perm (a : ScoreArgs) (s : Store) :
    (addScore a s).2.entries.Perm (mkEntry s.nextId a :: s.entries) :=
  (sortDesc_perm _).trans (List.perm_append_singleton _ _)

theorem addScoreK_nextId (a : ScoreArgs) :
    ∀ (k : Nat) (s : Store), (addScoreK a k s).nextId = s.nextId + k := by
  intro k
  induction k with
  | zero => intro s; rfl
  | succ n ih =>
    intro s
    have h := ih (addScore a s).2
    have h2 : (addScore a s).2.nextId = s.nextId + 1 := rfl
    simp only [addScoreK, h, h2]
    omega

theorem addScoreK_perm (a : ScoreArgs) :
    ∀ (k : Nat) (s : Store),
      (addScoreK a k s).entries.Perm
        (((List.range k).map fun j => mkEntry (s.nextId + j) a) ++ s.entries) := by
  intro k
  induction k with
  | zero => intro s; simp [addScoreK]
  | succ n ih =>
    intro s
    have step : (addScoreK a (n + 1) s).entries = (addScoreK a n (addScore a s).2).entries := rfl
    have h1 := ih (addScore a s).2
    have h2 : ((List.range n).map fun j => mkEntry ((addScore a s).2.nextId + j) a) =
        ((List.range n).map fun j => mkEntry (s.nextId + 1 + j) a) := rfl
    rw [h2] at h1
    have h3 := List.Perm.append_left
      ((List.range n).map fun j => mkEntry (s.nextId + 1 + j) a) (addScore_perm a s)
    have h5 : (((List.range (n + 1)).map fun j => mkEntry (s.nextId + j) a) ++ s.entries) =
        mkEntry s.nextId a ::
          (((List.range n).map fun j => mkEntry (s.nextId + 1 + j) a) ++ s.entries) := by
      rw [List.range_succ_eq_map]
      simp only [List.map_cons, List.map_map, Nat.add_zero, List.cons_append]
      have harg : ((fun j => mkEntry (s.nextId + j) a) ∘ Nat.succ) =
          fun j => mkEntry (s.nextId + 1 + j) a := by
        funext j
        simp only [Function.comp]
        have hj : s.nextId + (j + 1) = s.nextId + 1 + j := by omega
        rw [Nat.succ_eq_add_one, hj]
      rw [harg]
    rw [step, h5]
    exact h1.trans (h3.trans List.perm_middle)

/-- C7: `addScore` called K times grows the persisted collection by exactly
the K freshly built entries (a permutation with explicit fresh ids
`nextId + j`), so the length grows by exactly K, every previously stored
entry survives with unchanged fields, and — under the fresh-id counter
invariant — the resulting ids are pairwise distinct even when all K calls
share identical arguments. -/
theorem claim_C7 (a : ScoreArgs) (k : Nat) (s : Store) :
    (addScoreK a k s).entries.Perm
        (((List.range k).map fun j => mkEntry (s.nextId + j) a) ++ s.entries) ∧
      (addScoreK a k s).entries.length = s.entries.length + k ∧
      (∀ e ∈ s.entries, e ∈ (addScoreK a k s).entries) ∧
      ((∀ e ∈ s.entries, e.id < s.nextId) → (s.entries.map Entry.id).Nodup →
        ((addScoreK a k s).entries.map Entry.id).Nodup) := by
  have hperm := addScoreK_perm a k s
  refine ⟨hperm, ?_, ?_, ?_⟩
  · have := hperm.length_eq
    simp only [List.length_append, List.length_map, List.length_range] at this
    omega
  · intro e he
    exact hperm.mem_iff.mpr (List.mem_append_right _ he)
  · intro hlt hnd
    have hmap := hperm.map Entry.id
    rw [hmap.nodup_iff]
    simp only [List.map_append, List.map_map]
    apply List.Nodup.append
    · have hinj : (Entry.id ∘ fun j => mkEntry (s.nextId + j) a) =
          fun j => s.nextId + j := rfl
      rw [hinj]
      exact List.Nodup.map (fun i j h => by omega) (List.nodup_range k)
    · exact hnd
    · intro x hx hy
      simp only [List.mem_map, List.mem_range, Function.comp] at hx
      rcases hx with ⟨i, _, rfl⟩
      rcases List.mem_map.mp hy with ⟨e, he, heq⟩
      have hbound := hlt e he
      have hid : (mkEntry (s.nextId + i) a).id = s.nextId + i := rfl
      omega

/-- Fixture for the C7 witness: one pre-existing entry with id 0. -/
def storeC7 : Store := ⟨[⟨0, "z", 7, "easy", 1, 1, 0, none⟩], [], 1⟩

theorem claim_C7_witness :
    ((addScoreK args100 2 storeC7).entries.map Entry.id).Nodup :=
  (claim_C7 args100 2 storeC7).2.2.2 (by decide) (by decide)

/-! ### Claim C5: getPlayerRank -/

/-- Fixture: a player whose only entry has score 0. -/
def storeC5cex : Store := ⟨[⟨0, "alice", 0, "easy", 1, 1, 0, none⟩], [], 1⟩

/-- C5 counterexample: the player has an entry, and the best-score entry
sits at 1-based position 1 of the difficulty leaderboard, yet
`getPlayerRank` returns 0 — `getPlayerBestScore` overloads 0 as "no
entries", so a best score of 0 short-circuits the rank lookup. -/
theorem claim_C5_cex :
    getPlayerRank "alice" "easy" storeC5cex = 0 ∧
      playerEntries "alice" "easy" storeC5cex ≠ [] ∧
      jsFindIndex
          (fun e => e.playerWallet == "alice" &&
            decide (e.score = getPlayerBestScore "alice" "easy" storeC5cex))
          (getLeaderboardByDifficulty "easy" storeC5cex) = some 0 := by
  decide

theorem bestScore_of_empty {w d : String} {s : Store}
    (h : playerEntries w d s = []) : getPlayerBestScore w d s = 0 := by
  simp [getPlayerBestScore, h]

theorem bestScore_attained {w d : String} {s : Store}
    (h : playerEntries w d s ≠ []) :
    ∃ e ∈ playerEntries w d s, e.score = getPlayerBestScore w d s := by
  cases hpe : playerEntries w d s with
  | nil => exact absurd hpe h
  | cons p ps =>
    simp only [getPlayerBestScore, hpe, List.map_cons]
    rcases maxOf_eq_or_mem (ps.map Entry.score) p.score with he | he
    · exact ⟨p, List.mem_cons_self _ _, he.symm⟩
    · rcases List.mem_map.mp he with ⟨e, hmem, heq⟩
      exact ⟨e, List.mem_cons_of_mem _ hmem, heq⟩

theorem playerEntries_mem_lb {w d : String} {s : Store} {e : Entry}
    (he : e ∈ playerEntries w d s) :
    e ∈ getLeaderboardByDifficulty d s ∧ e.playerWallet = w := by
  rcases List.mem_filter.mp he with ⟨hmem, hp⟩
  simp only [Bool.and_eq_true, beq_iff_eq] at hp
  rcases hp with ⟨hw, hd, hf⟩
  refine ⟨?_, hw⟩
  apply mem_sortDesc.mpr
  apply List.mem_filter.mpr
  exact ⟨hmem, by simp [Bool.and_eq_true, beq_iff_eq, hd, hf]⟩

/-- C5 (amended): `getPlayerRank` returns 0 when the player has no
non-tournament entries at the difficulty; it also returns 0 whenever the
player's best score is 0 (even though such a player does occupy a
leaderboard position); when the best score is nonzero it returns the
1-based first position, within `getLeaderboardByDifficulty`, of an entry of
that player carrying the best score. -/
theorem claim_C5 (w d : String) (s : Store) :
    (playerEntries w d s = [] → getPlayerRank w d s = 0) ∧
      (getPlayerBestScore w d s = 0 → getPlayerRank w d s = 0) ∧
      (getPlayerBestScore w d s ≠ 0 →
        ∃ i e, getPlayerRank w d s = i + 1 ∧
          (getLeaderboardByDifficulty d s)[i]? = some e ∧
          e.playerWallet = w ∧ e.score = getPlayerBestScore w d s ∧
          ∀ j e', j < i → (getLeaderboardByDifficulty d s)[j]? = some e' →
            ¬(e'.playerWallet = w ∧ e'.score = getPlayerBestScore w d s)) := by
  refine ⟨?_, ?_, ?_⟩
  · intro h
    simp [getPlayerRank, bestScore_of_empty h]
  · intro h
    simp [getPlayerRank, h]
  · intro h
    have hne : playerEntries w d s ≠ [] := fun hempty => h (bestScore_of_empty hempty)
    rcases bestScore_attained hne with ⟨e0, he0, hsc⟩
    rcases playerEntries_mem_lb he0 with ⟨hlb, hwallet⟩
    have hp0 : (fun e => e.playerWallet == w &&
        decide (e.score = getPlayerBestScore w d s)) e0 = true := by
      simp [hwallet, hsc]
    rcases @jsFindIndex_isSome
        (fun e => e.playerWallet == w && decide (e.score = getPlayerBestScore w d s))
        e0 (getLeaderboardByDifficulty d s) hlb hp0 with ⟨i, hfind⟩
    rcases jsFindIndex_spec hfind with ⟨x, hx, hpx, hmin⟩
    simp only [Bool.and_eq_true, beq_iff_eq, decide_eq_true_eq] at hpx
    refine ⟨i, x, ?_, hx, hpx.1, hpx.2, ?_⟩
    · simp only [getPlayerRank, if_neg h, hfind]
    · intro j e' hj hjget hcontra
      have hpe' := hmin j e' hj hjget
      rw [show (e'.playerWallet == w &&
          decide (e'.score = getPlayerBestScore w d s)) = true
        from by simp [hcontra.1, hcontra.2]] at hpe'
      exact absurd hpe' (by simp)

/-- Fixture: a player with a single nonzero-score entry. -/
def storeC5w : Store := ⟨[⟨0, "bob", 100, "easy", 1, 1, 0, none⟩], [], 1⟩

theorem claim_C5_witness :
    ∃ i e, getPlayerRank "bob" "easy" storeC5w = i + 1 ∧
      (getLeaderboardByDifficulty "easy" storeC5w)[i]? = some e ∧
      e.playerWallet = "bob" ∧
      e.score = getPlayerBestScore "bob" "easy" storeC5w ∧
      ∀ j e', j < i → (getLeaderboardByDifficulty "easy" storeC5w)[j]? = some e' →
        ¬(e'.playerWallet = "bob" ∧
          e'.score = getPlayerBestScore "bob" "easy" storeC5w) :=
  (claim_C5 "bob" "easy" storeC5w).2.2 (by decide)

/-! ### Claim C1: idempotent tournament entry -/

/-- C1: when an `enterTournament` call for a wallet not yet among the
participants succeeds, the stored tournament gains the wallet exactly once
(count 1) and exactly one `prizePool` increment of `entryFee`; the first
call did invoke the payment capability, and a second call for the same
wallet — whatever its payment capability would do — returns true, leaves
the store unchanged and does not invoke payment. -/
theorem claim_C1 (p p2 : Option Bool) (w tid : String) (s : Store)
    (t : Tournament)
    (hfind : findT tid s = some t) (hnot : w ∉ t.participants)
    (hsucc : (enterTournament p (some w) tid s).1 = true) :
    ∃ t1, findT tid (enterTournament p (some w) tid s).2.1 = some t1 ∧
      t1.participants.count w = 1 ∧
      t1.prizePool = t.prizePool + t.entryFee ∧
      (enterTournament p (some w) tid s).2.2 = true ∧
      enterTournament p2 (some w) tid (enterTournament p (some w) tid s).2.1 =
        (true, (enterTournament p (some w) tid s).2.1, false) := by
  by_cases hst : t.status = Status.active
  case neg =>
    exfalso
    simp [enterTournament, hfind, hst] at hsucc
  case pos =>
    rcases p with _ | b
    · exfalso
      simp [enterTournament, hfind, hst, hnot] at hsucc
    rcases b with _ | _
    · exfalso
      simp [enterTournament, hfind, hst, hnot] at hsucc
    have heq : enterTournament (some true) (some w) tid s =
        (true,
         { s with tournaments :=
            updateFirst tid (joinUpdate w t.entryFee) s.tournaments },
         true) := by
      simp [enterTournament, hfind, hst, hnot, joinTournament]
    rw [heq]
    have hfind' : s.tournaments.find? (fun u => u.id == tid) = some t := by
      simpa [findT, getTournaments] using hfind
    have ht1 := find?_updateFirst (joinUpdate w t.entryFee) hfind' rfl
    refine ⟨_, by simpa [findT, getTournaments] using ht1, ?_, rfl, rfl, ?_⟩
    · simp [joinUpdate, List.count_append, List.count_eq_zero_of_not_mem hnot]
    · have hmem : w ∈ (joinUpdate w t.entryFee t).participants :=
        List.mem_append_right _ (by simp)
      simp [enterTournament, findT, getTournaments, ht1, hst, hmem, joinUpdate]

/-- Fixture: an empty active tournament with entry fee 5. -/
def tournC1 : Tournament :=
  ⟨"t1", "Cup", Status.active, 0, 100, 5, 0, [], "easy", []⟩

def storeC1 : Store := ⟨[], [tournC1], 1⟩

theorem claim_C1_witness :
    ∃ t1, findT "t1"
        (enterTournament (some true) (some "w1") "t1" storeC1).2.1 = some t1 ∧
      t1.participants.count "w1" = 1 ∧
      t1.prizePool = tournC1.prizePool + tournC1.entryFee ∧
      (enterTournament (some true) (some "w1") "t1" storeC1).2.2 = true ∧
      enterTournament (some false) (some "w1") "t1"
          (enterTournament (some true) (some "w1") "t1" storeC1).2.1 =
        (true, (enterTournament (some true) (some "w1") "t1" storeC1).2.1,
         false) :=
  claim_C1 (some true) (some false) "w1" "t1" storeC1 tournC1
    (by decide) (by decide) (by decide)

/-! ### Claim C3: the reconciliation run -/

/-- Fixture: an upcoming tournament whose whole window has already passed. -/
def tournC3 : Tournament :=
  ⟨"t3", "Cup", Status.upcoming, 0, 5, 1, 0, [], "easy", []⟩

def storeC3 : Store := ⟨[], [tournC3], 1⟩

/-- C3 counterexample: at `now = 10` the stored tournament has
`endTime = 5 ≤ now`, yet the reconciliation run leaves its status
"upcoming": the upcoming→active step requires `now < endTime` and the
completion step requires status "active", so an expired upcoming tournament
is never completed. -/
theorem claim_C3_cex :
    (checkAndUpdateTournaments 10 storeC3).tournaments.map Tournament.status =
        [Status.upcoming] ∧
      tournC3.endTime ≤ 10 := by
  decide

/-- C3 (amended): after `checkAndUpdateTournaments` at time `now`, every
stored tournament that was "active" with `endTime ≤ now` is "completed"
with `winners` = the top 3 of its tournament leaderboard (at most 3
entries, in descending score order); a tournament that was "upcoming" with
`endTime ≤ now` is left entirely unchanged — it does not complete. -/
theorem claim_C3 (now : Int) (s : Store) (i : Nat) (t : Tournament)
    (hget : s.tournaments[i]? = some t) (hend : t.endTime ≤ now) :
    (t.status = Status.active →
      ∃ t', (checkAndUpdateTournaments now s).tournaments[i]? = some t' ∧
        t'.status = Status.completed ∧
        t'.winners = (getTournamentLeaderboard t.id s).take 3 ∧
        t'.winners.length ≤ 3 ∧ t'.winners.Pairwise scoreGe) ∧
    (t.status = Status.upcoming →
      (checkAndUpdateTournaments now s).tournaments[i]? = some t) := by
  constructor
  · intro hst
    have hnotup : ¬ (t.status = Status.upcoming ∧ t.startTime ≤ now ∧ now < t.endTime) := by
      simp [hst]
    have hstep : (checkAndUpdateTournaments now s).tournaments[i]? =
        some { t with status := Status.completed,
                      winners := (getTournamentLeaderboard t.id s).take 3 } := by
      simp only [checkAndUpdateTournaments, List.getElem?_map, hget, Option.map_some',
        if_neg hnotup, if_pos (And.intro hst hend)]
    refine ⟨_, hstep, rfl, rfl, ?_, ?_⟩
    · show (List.take 3 (getTournamentLeaderboard t.id s)).length ≤ 3
      simp only [List.length_take]
      omega
    · show (List.take 3 (getTournamentLeaderboard t.id s)).Pairwise scoreGe
      exact List.Pairwise.sublist (List.take_sublist 3 _) (sortDesc_sorted _)
  · intro hst
    have hnotup : ¬ (t.status = Status.upcoming ∧ t.startTime ≤ now ∧ now < t.endTime) := by
      rintro ⟨_, _, hlt⟩
      exact absurd hend (not_le.mpr hlt)
    have hnotact : ¬ (t.status = Status.active ∧ t.endTime ≤ now) := by
      rintro ⟨hact, _⟩
      rw [hst] at hact
      exact Status.noConfusion hact
    simp only [checkAndUpdateTournaments, List.getElem?_map, hget, Option.map_some',
      if_neg hnotup, if_neg hnotact]

/-- Fixture: an expired active tournament, for the C3 witness. -/
def tournC3w : Tournament :=
  ⟨"t3w", "Cup", Status.active, 0, 5, 1, 0, [], "easy", []⟩

def storeC3w : Store := ⟨[], [tournC3w], 1⟩

theorem claim_C3_witness :
    ∃ t', (checkAndUpdateTournaments 10 storeC3w).tournaments[0]? = some t' ∧
      t'.status = Status.completed ∧
      t'.winners = (getTournamentLeaderboard tournC3w.id storeC3w).take 3 ∧
      t'.winners.length ≤ 3 ∧ t'.winners.Pairwise scoreGe :=
  (claim_C3 10 storeC3w 0 tournC3w (by decide) (by decide)).1 rfl

/-! ### Claim C6: prize pool accounting and monotonicity -/

theorem updateFirst_getElem?_found (tid : String) (f : Tournament → Tournament) :
    ∀ (l : List Tournament) (t : Tournament) (i : Nat),
      l.find? (fun u => u.id == tid) = some t →
      ((updateFirst tid f l)[i]? = l[i]? ∨
        (l[i]? = some t ∧ (updateFirst tid f l)[i]? = some (f t))) := by
  intro l
  induction l with
  | nil => intro t i hf; simp at hf
  | cons u us ih =>
    intro t i hf
    by_cases hc : (u.id == tid) = true
    · have hcp : (fun v : Tournament => v.id == tid) u = true := hc
      rw [List.find?_cons_of_pos us hcp] at hf
      injection hf with hf
      subst hf
      simp only [updateFirst, if_pos hc]
      cases i with
      | zero => exact Or.inr ⟨by simp, by simp⟩
      | succ j => exact Or.inl (by simp)
    · have hcp : ¬ (fun v : Tournament => v.id == tid) u = true := hc
      rw [List.find?_cons_of_neg us hcp] at hf
      simp only [updateFirst, if_neg hc]
      cases i with
      | zero => exact Or.inl (by simp)
      | succ j =>
        rcases ih t j hf with hcase | ⟨h1, h2⟩
        · exact Or.inl (by simpa using hcase)
        · exact Or.inr ⟨by simpa using h1, by simpa using h2⟩

theorem joinTournament_mono {tid w : String} {fee : ℚ} (s : Store)
    (hfee : 0 ≤ fee) :
    ∀ (i : Nat) (t t' : Tournament), s.tournaments[i]? = some t →
      (joinTournament tid w fee s).2.tournaments[i]? = some t' →
      t.prizePool ≤ t'.prizePool := by
  intro i t t' h h'
  cases hf : findT tid s with
  | none =>
    rw [show (joinTournament tid w fee s).2 = s from by simp [joinTournament, hf]] at h'
    rw [h] at h'
    rw [Option.some.inj h']
  | some t0 =>
    by_cases hw : w ∈ t0.participants
    · rw [show (joinTournament tid w fee s).2 = s from by
        simp [joinTournament, hf, hw]] at h'
      rw [h] at h'
      rw [Option.some.inj h']
    · have hf' : s.tournaments.find? (fun u => u.id == tid) = some t0 := by
        simpa [findT, getTournaments] using hf
      have h2 : (joinTournament tid w fee s).2.tournaments =
          updateFirst tid (joinUpdate w fee) s.tournaments := by
        simp [joinTournament, hf, hw]
      rw [h2] at h'
      rcases updateFirst_getElem?_found tid (joinUpdate w fee) s.tournaments t0 i hf'
        with hcase | ⟨h1, hcase⟩
      · rw [hcase, h] at h'
        rw [Option.some.inj h']
      · have ht0 : t = t0 := by
          rw [h] at h1
          exact Option.some.inj h1
        have ht' : t' = joinUpdate w fee t0 := by
          rw [hcase] at h'
          exact (Option.some.inj h').symm
        rw [ht0, ht']
        simp only [joinUpdate]
        linarith

/-- C6: (1) a tournament found with status "active", `prizePool = 0` and
none of the given wallets among its participants ends, after the run of
successful `enterTournament` calls for those distinct wallets, with
`prizePool = N × entryFee`; (2) no operation of the subsystem ever
decreases any stored tournament's `prizePool`, provided stored entry fees
are non-negative and a direct repository `joinTournament` is given a
non-negative fee. -/
theorem claim_C6 :
    (∀ (tid : String) (ws : List String) (s : Store) (t0 : Tournament),
      findT tid s = some t0 → t0.status = Status.active → t0.prizePool = 0 →
      ws.Nodup → (∀ v ∈ ws, v ∉ t0.participants) →
      ∃ t', findT tid (enterAll tid ws s) = some t' ∧
        t'.prizePool = ws.length * t0.entryFee) ∧
    (∀ (op : Op) (s : Store),
      (∀ t ∈ s.tournaments, 0 ≤ t.entryFee) →
      (∀ tid w fee, op = Op.joinT tid w fee → 0 ≤ fee) →
      ∀ (i : Nat) (t t' : Tournament), s.tournaments[i]? = some t →
        (applyOp op s).tournaments[i]? = some t' →
        t.prizePool ≤ t'.prizePool) := by
  constructor
  · have run : ∀ (tid : String) (ws : List String) (s : Store) (t0 : Tournament),
        findT tid s = some t0 → t0.status = Status.active → ws.Nodup →
        (∀ v ∈ ws, v ∉ t0.participants) →
        ∃ t', findT tid (enterAll tid ws s) = some t' ∧
          t'.participants = t0.participants ++ ws ∧
          t'.prizePool = t0.prizePool + ws.length * t0.entryFee ∧
          t'.status = t0.status ∧ t'.entryFee = t0.entryFee := by
      intro tid ws
      induction ws with
      | nil =>
        intro s t0 hfind hst hnd hnin
        exact ⟨t0, hfind, by simp, by simp, rfl, rfl⟩
      | cons v vs ih =>
        intro s t0 hfind hst hnd hnin
        have hv : v ∉ t0.participants := hnin v (List.mem_cons_self _ _)
        have heq : enterTournament (some true) (some v) tid s =
            (true,
             { s with tournaments :=
                updateFirst tid (joinUpdate v t0.entryFee) s.tournaments },
             true) := by
          simp [enterTournament, hfind, hst, hv, joinTournament]
        have hstep : enterAll tid (v :: vs) s =
            enterAll tid vs (enterTournament (some true) (some v) tid s).2.1 := rfl
        have hfind0 : s.tournaments.find? (fun u => u.id == tid) = some t0 := by
          simpa [findT, getTournaments] using hfind
        have ht1 := find?_updateFirst (joinUpdate v t0.entryFee) hfind0 rfl
        have hfind1 : findT tid
            { s with tournaments :=
                updateFirst tid (joinUpdate v t0.entryFee) s.tournaments } =
            some (joinUpdate v t0.entryFee t0) := by
          simpa [findT, getTournaments] using ht1
        have hst1 : (joinUpdate v t0.entryFee t0).status = Status.active := hst
        have hnd1 : vs.Nodup := (List.nodup_cons.mp hnd).2
        have hvnotin : v ∉ vs := (List.nodup_cons.mp hnd).1
        have hnin1 : ∀ u ∈ vs, u ∉ (joinUpdate v t0.entryFee t0).participants := by
          intro u hu
          simp only [joinUpdate, List.mem_append, List.mem_singleton]
          rintro (hin | rfl)
          · exact hnin u (List.mem_cons_of_mem _ hu) hin
          · exact hvnotin hu
        rcases ih _ _ hfind1 hst1 hnd1 hnin1 with ⟨t', h1, h2, h3, h4, h5⟩
        refine ⟨t', ?_, ?_, ?_, h4.trans rfl, h5.trans rfl⟩
        · rw [hstep, heq]
          exact h1
        · rw [h2]
          simp [joinUpdate]
        · rw [h3]
          simp only [joinUpdate, List.length_cons]
          push_cast
          ring
    intro tid ws s t0 hfind hst hpool hnd hnin
    rcases run tid ws s t0 hfind hst hnd hnin with ⟨t', h1, _, h3, _, _⟩
    refine ⟨t', h1, ?_⟩
    rw [h3, hpool, zero_add]
  · intro op s hfees hjfee i t t' h h'
    cases op with
    | score a =>
      have hsame : (applyOp (Op.score a) s).tournaments = s.tournaments := rfl
      rw [hsame, h] at h'
      rw [Option.some.inj h']
    | createT n f a b d now =>
      by_cases hneg : f < 0
      · rw [show (applyOp (Op.createT n f a b d now) s).tournaments = s.tournaments
          from by simp [applyOp, tmCreateTournament, hneg], h] at h'
        rw [Option.some.inj h']
      · by_cases hle : b ≤ a
        · rw [show (applyOp (Op.createT n f a b d now) s).tournaments = s.tournaments
            from by simp [applyOp, tmCreateTournament, hneg, hle], h] at h'
          rw [Option.some.inj h']
        · have hlen : i < s.tournaments.length := by
            rcases List.getElem?_eq_some.mp h with ⟨hl, _⟩
            exact hl
          have happ : (applyOp (Op.createT n f a b d now) s).tournaments[i]? =
              s.tournaments[i]? := by
            have hform : (applyOp (Op.createT n f a b d now) s).tournaments =
                s.tournaments ++
                  [(lbCreateTournament n
                    (if a ≤ now ∧ now < b then Status.active
                     else if b ≤ now then Status.completed else Status.upcoming)
                    a b f d s).1] := by
              simp [applyOp, tmCreateTournament, hneg, hle, lbCreateTournament,
                getTournaments]
            rw [hform]
            exact List.getElem?_append_left hlen
          rw [happ, h] at h'
          rw [Option.some.inj h']
    | joinT tid w fee =>
      exact joinTournament_mono s (hjfee tid w fee rfl) i t t' h h'
    | enterT p wk tid =>
      cases wk with
      | none =>
        rw [show (applyOp (Op.enterT p none tid) s).tournaments = s.tournaments
          from rfl, h] at h'
        rw [Option.some.inj h']
      | some w =>
        cases hf : findT tid s with
        | none =>
          rw [show (applyOp (Op.enterT p (some w) tid) s).tournaments = s.tournaments
            from by simp [applyOp, enterTournament, hf], h] at h'
          rw [Option.some.inj h']
        | some t0 =>
          by_cases hst : t0.status = Status.active
          · by_cases hw : w ∈ t0.participants
            · rw [show (applyOp (Op.enterT p (some w) tid) s).tournaments =
                  s.tournaments
                from by simp [applyOp, enterTournament, hf, hst, hw], h] at h'
              rw [Option.some.inj h']
            · rcases p with _ | b
              · rw [show (applyOp (Op.enterT none (some w) tid) s).tournaments =
                    s.tournaments
                  from by simp [applyOp, enterTournament, hf, hst, hw], h] at h'
                rw [Option.some.inj h']
              rcases b with _ | _
              · rw [show (applyOp (Op.enterT (some false) (some w) tid) s).tournaments =
                    s.tournaments
                  from by simp [applyOp, enterTournament, hf, hst, hw], h] at h'
                rw [Option.some.inj h']
              · have hfee0 : 0 ≤ t0.entryFee := by
                  apply hfees
                  exact List.mem_of_find?_eq_some
                    (by simpa [findT, getTournaments] using hf)
                have hform2 : (applyOp (Op.enterT (some true) (some w) tid) s) =
                    (joinTournament tid w t0.entryFee s).2 := by
                  simp [applyOp, enterTournament, hf, hst, hw]
                rw [hform2] at h'
                exact joinTournament_mono s hfee0 i t t' h h'
          · rw [show (applyOp (Op.enterT p (some w) tid) s).tournaments = s.tournaments
              from by simp [applyOp, enterTournament, hf, hst], h] at h'
            rw [Option.some.inj h']
    | checkT now =>
      simp only [applyOp, checkAndUpdateTournaments, List.getElem?_map, h,
        Option.map_some'] at h'
      rw [(Option.some.inj h').symm]
      split_ifs <;> simp
    | endT tid =>
      cases hf : findT tid s with
      | none =>
        rw [show (applyOp (Op.endT tid) s).tournaments = s.tournaments
          from by simp [applyOp, endTournament, hf], h] at h'
        rw [Option.some.inj h']
      | some t0 =>
        have hf' : s.tournaments.find? (fun u => u.id == tid) = some t0 := by
          simpa [findT, getTournaments] using hf
        have hform : (applyOp (Op.endT tid) s).tournaments =
            updateFirst tid
              (fun _ => { t0 with status := Status.completed,
                                  winners := (getTournamentLeaderboard tid s).take 3 })
              s.tournaments := by
          simp [applyOp, endTournament, hf]
        rw [hform] at h'
        rcases updateFirst_getElem?_found tid _ s.tournaments t0 i hf'
          with hcase | ⟨h1, hcase⟩
        · rw [hcase, h] at h'
          rw [Option.some.inj h']
        · have ht0 : t = t0 := by
            rw [h] at h1
            exact Option.some.inj h1
          have ht' : t'.prizePool = t0.prizePool := by
            rw [hcase] at h'
            rw [(Option.some.inj h').symm]
          rw [ht', ht0]

/-- Fixture: an empty active tournament with fee 5 for the C6 witness. -/
def tournC6 : Tournament :=
  ⟨"t6", "Cup", Status.active, 0, 100, 5, 0, [], "easy", []⟩

def storeC6 : Store := ⟨[], [tournC6], 1⟩

theorem claim_C6_witness :
    (∃ t', findT "t6" (enterAll "t6" ["a", "b"] storeC6) = some t' ∧
        t'.prizePool = (List.length ["a", "b"] : ℚ) * tournC6.entryFee) ∧
      ∀ (i : Nat) (t t' : Tournament), storeC6.tournaments[i]? = some t →
        (applyOp (Op.joinT "t6" "c" 5) storeC6).tournaments[i]? = some t' →
        t.prizePool ≤ t'.prizePool := by
  constructor
  · exact claim_C6.1 "t6" ["a", "b"] storeC6 tournC6 (by decide) rfl rfl
      (by decide) (by decide)
  · apply claim_C6.2 (Op.joinT "t6" "c" 5) storeC6 (by decide)
    intro a b c hop
    injection hop with h1 h2 h3
    rw [h3.symm]
    decide

end MemGame
